import Mathlib

/-
Shallow embedding of `advent-solutions/src/year_2015/day_07.rs`: a lazy,
dependency-resolving evaluator for a 16-bit logic-wire circuit.

Modelling conventions:
  * Rust `u16` values are `Nat`s kept below `2 ^ 16`; the bitwise operators
    carry an explicit `% 65536` where the width matters.
  * A Rust panic (a failed `unwrap`, an out-of-range numeral, an indexing
    failure on a missing `HashMap` key, or a debug-profile shift-amount
    overflow) is a distinguished abnormal result (`none` / `.panicked`).
  * The `while let` resolution loop is a fuel-indexed function; `.fuelOut`
    marks that the given number of iterations did not finish the loop.
  * `HashMap` is an association list: `insert` prepends and lookup takes the
    first match, which is observationally the overwrite semantics of
    `HashMap::insert`.
-/

/-- ASCII whitespace, as consulted by Rust's `str::split_ascii_whitespace`. -/
def isAsciiWs (c : Char) : Bool :=
  c == ' ' || c == '\t' || c == '\n' || c == '\x0c' || c == '\r'

/-- Rust `char::is_ascii_punctuation`. -/
def isAsciiPunct (c : Char) : Bool :=
  (33 ≤ c.toNat && c.toNat ≤ 47) || (58 ≤ c.toNat && c.toNat ≤ 64) ||
    (91 ≤ c.toNat && c.toNat ≤ 96) || (123 ≤ c.toNat && c.toNat ≤ 126)

/-- ASCII fragment of Rust `char::is_alphabetic`. Every token of the statement
grammar is ASCII, where the two functions agree. -/
def rustIsAlpha (c : Char) : Bool :=
  c.isUpper || c.isLower

/-- Splitter core for `split_ascii_whitespace`: `acc` holds the current word
reversed; words are emitted in order, empty pieces are skipped. -/
def wordsAux : List Char → List Char → List (List Char)
  | [], acc => if acc.isEmpty then [] else [acc.reverse]
  | c :: t, acc =>
    if isAsciiWs c then
      if acc.isEmpty then wordsAux t [] else acc.reverse :: wordsAux t []
    else
      wordsAux t (c :: acc)

/-- Rust `str::split_ascii_whitespace` (as an eager list of pieces). -/
def splitAsciiWs (s : String) : List String :=
  (wordsAux s.data []).map String.mk

/-- Decimal value of a digit list. -/
def digitsToNat (l : List Char) : Nat :=
  l.foldl (fun a c => a * 10 + (c.toNat - 48)) 0

/-- Rust `str::parse::<u16>()`: an optional `+` sign, then one or more ASCII
digits denoting a value below `2 ^ 16`; anything else is an error (`none`). -/
def rustParseU16 (s : String) : Option Nat :=
  let ds := match s.data with
    | '+' :: t => t
    | t => t
  if ds ≠ [] ∧ ds.all Char.isDigit ∧ digitsToNat ds < 65536 then
    some (digitsToNat ds)
  else
    none

/-- `Token` from the source: a whitespace-separated piece classified by its
first character. -/
inductive Token
  | literal (s : String)
  | ident (s : String)
  | op (s : String)
deriving DecidableEq

/-- `Token::parse`: classify a piece by its first character; `none` for an
empty piece or an unclassifiable first character (the piece is dropped by the
`filter_map` in `add_connection`). -/
def Token.parse (piece : String) : Option Token :=
  match piece.data with
  | [] => none
  | c :: _ =>
    if c.isDigit then some (.literal piece)
    else if rustIsAlpha c then some (.ident piece)
    else if isAsciiPunct c then some (.op piece)
    else none

/-- `Token::to_string`. -/
def Token.str : Token → String
  | .literal s => s
  | .ident s => s
  | .op s => s

/-- `WireValue`: a 16-bit literal or a reference to a named wire. -/
inductive WireValue
  | literal (v : Nat)
  | ident (s : String)
deriving DecidableEq

/-- The `Resolved` state (`WireState` in the source): name to 16-bit value. -/
abbrev WireState := List (String × Nat)

/-- First-match association-list lookup (`HashMap` observation). -/
def alookup {α : Type} : List (String × α) → String → Option α
  | [], _ => none
  | (k, v) :: t, w => if k = w then some v else alookup t w

/-- Result of evaluating a value/gate/source against the resolved state:
a value, a missing dependency (`WireDependencyError`), or a panic. -/
inductive EvalRes
  | ok (v : Nat)
  | needs (w : String)
  | panicked
deriving DecidableEq

/-- `WireValue::from_token`; `none` models a panic: either the `unwrap` of
`l.parse::<u16>()` failing on a malformed numeral, or the caller's `unwrap`
of the `None` returned for an operator token. -/
def WireValue.from_token : Token → Option WireValue
  | .literal l => (rustParseU16 l).map WireValue.literal
  | .ident s => some (.ident s)
  | .op _ => none

/-- `WireValue::val`. -/
def WireValue.val (wv : WireValue) (states : WireState) : EvalRes :=
  match wv with
  | .literal v => .ok v
  | .ident i =>
    match alookup states i with
    | some v => .ok v
    | none => .needs i

/-- Rust `!` on `u16`. -/
def u16_not (a : Nat) : Nat := 65535 - a % 65536

/-- Rust `<<` on `u16` for a shift amount below 16. -/
def u16_shl (a b : Nat) : Nat := a % 65536 * 2 ^ b % 65536

/-- Rust `>>` on `u16` for a shift amount below 16. -/
def u16_shr (a b : Nat) : Nat := a % 65536 / 2 ^ b

/-- `LogicGate`. -/
inductive LogicGate
  | not (v : WireValue)
  | and (a b : WireValue)
  | or (a b : WireValue)
  | lshift (a b : WireValue)
  | rshift (a b : WireValue)
deriving DecidableEq

/-- `LogicGate::binary_from_tokens`. -/
def LogicGate.binary_from_tokens (val1 : WireValue) (op : Token) (val2 : WireValue) :
    Option LogicGate :=
  if op.str = "AND" then some (.and val1 val2)
  else if op.str = "OR" then some (.or val1 val2)
  else if op.str = "LSHIFT" then some (.lshift val1 val2)
  else if op.str = "RSHIFT" then some (.rshift val1 val2)
  else none

/-- `LogicGate::val`. The left operand is evaluated first and its dependency
error propagates first (`lhs.val(states)? OP rhs.val(states)?`). A shift
amount of 16 or more is the debug-profile overflow panic of `<<` / `>>` on
`u16`. -/
def LogicGate.val (g : LogicGate) (states : WireState) : EvalRes :=
  match g with
  | .not v =>
    match v.val states with
    | .ok a => .ok (u16_not a)
    | e => e
  | .and l r =>
    match l.val states with
    | .ok a =>
      match r.val states with
      | .ok b => .ok (Nat.land a b)
      | e => e
    | e => e
  | .or l r =>
    match l.val states with
    | .ok a =>
      match r.val states with
      | .ok b => .ok (Nat.lor a b)
      | e => e
    | e => e
  | .lshift l r =>
    match l.val states with
    | .ok a =>
      match r.val states with
      | .ok b => if 16 ≤ b then .panicked else .ok (u16_shl a b)
      | e => e
    | e => e
  | .rshift l r =>
    match l.val states with
    | .ok a =>
      match r.val states with
      | .ok b => if 16 ≤ b then .panicked else .ok (u16_shr a b)
      | e => e
    | e => e

/-- `WireSource`. -/
inductive WireSource
  | gate (g : LogicGate)
  | value (v : WireValue)
deriving DecidableEq

/-- `WireSource::val`. -/
def WireSource.val (src : WireSource) (states : WireState) : EvalRes :=
  match src with
  | .gate g => g.val states
  | .value v => v.val states

/-- `WireMap` in the source: the `Connections` mapping. -/
abbrev Connections := List (String × WireSource)

/-- `LogicWires`: the resolved-state cache plus the connections graph. -/
structure LogicWires where
  state : WireState
  connections : Connections
deriving DecidableEq

/-- Outcome of the `while let` resolution loop. -/
inductive RunRes
  | ok (st : WireState)
  | panicked
  | fuelOut
deriving DecidableEq

/-- The explicit-stack loop of `LogicWires::val` (lines 174-186), one fuel per
iteration. Popping a wire absent from `connections` is the indexing panic of
`self.connections[&wire]`; on a dependency error the wire is pushed back and
the missing dependency pushed on top. -/
def valLoop (conns : Connections) : Nat → WireState → List String → RunRes
  | _, st, [] => .ok st
  | 0, _, _ :: _ => .fuelOut
  | fuel + 1, st, w :: rest =>
    match alookup conns w with
    | none => .panicked
    | some src =>
      match src.val st with
      | .ok v => valLoop conns fuel ((w, v) :: st) rest
      | .needs d => valLoop conns fuel st (d :: w :: rest)
      | .panicked => .panicked

/-- Outcome of `LogicWires::val`: the value together with the updated session
(the Rust method mutates `self`), a panic, or fuel exhaustion. -/
inductive ValRes
  | ok (v : Nat) (lw : LogicWires)
  | panicked
  | fuelOut
deriving DecidableEq

/-- Just the numeric value of a `ValRes`, when there is one. -/
def ValRes.value? : ValRes → Option Nat
  | .ok v _ => some v
  | _ => none

/-- `LogicWires::val`: return the cached value if present, otherwise run the
resolution loop seeded with the requested wire and read the wire's entry
afterwards (`self.state[wire]`, whose failure would also be a panic). -/
def LogicWires.val (lw : LogicWires) (wire : String) (fuel : Nat) : ValRes :=
  match alookup lw.state wire with
  | some v => .ok v lw
  | none =>
    match valLoop lw.connections fuel lw.state [wire] with
    | .ok st =>
      match alookup st wire with
      | some v => .ok v ⟨st, lw.connections⟩
      | none => .panicked
    | .panicked => .panicked
    | .fuelOut => .fuelOut

/-- The pure parsing part of `LogicWires::add_connection` (lines 139-163 and
the key of line 166): tokenize, then read the statement following the source's
control flow; `none` is a panic of one of the `unwrap`s. The trailing `->`
of gate statements is consumed without being checked, and tokens after the
destination are never demanded from the iterator. -/
def parseStatement (statement : String) : Option (String × WireSource) :=
  match (splitAsciiWs statement).filterMap Token.parse with
  | [] => none
  | first :: rest =>
    if first.str = "NOT" then
      match rest with
      | [] => none
      | t2 :: rest2 =>
        match WireValue.from_token t2 with
        | none => none
        | some wv =>
          match rest2.drop 1 with
          | [] => none
          | dest :: _ => some (dest.str, .gate (.not wv))
    else
      match WireValue.from_token first with
      | none => none
      | some val1 =>
        match rest with
        | [] => none
        | op :: rest2 =>
          if op.str = "->" then
            match rest2 with
            | [] => none
            | dest :: _ => some (dest.str, .value val1)
          else
            match rest2 with
            | [] => none
            | t3 :: rest3 =>
              match WireValue.from_token t3 with
              | none => none
              | some val2 =>
                match LogicGate.binary_from_tokens val1 op val2 with
                | none => none
                | some g =>
                  match rest3.drop 1 with
                  | [] => none
                  | dest :: _ => some (dest.str, .gate g)

/-- `LogicWires::add_connection`: parse the statement and insert the source
under the destination key (overwriting a prior binding); `none` is a panic. -/
def LogicWires.add_connection (lw : LogicWires) (statement : String) : Option LogicWires :=
  (parseStatement statement).map fun p => ⟨lw.state, (p.1, p.2) :: lw.connections⟩

/-- Feed a list of statement lines to `add_connection` in order. -/
def loadLines : LogicWires → List String → Option LogicWires
  | lw, [] => some lw
  | lw, l :: t =>
    match lw.add_connection l with
    | some lw' => loadLines lw' t
    | none => none

/-- One session command: `add_connection` on a line, or `value_of` on a wire. -/
inductive Cmd
  | add (s : String)
  | ask (w : String)
deriving DecidableEq

/-- Run a session from a given state, collecting the answers of the `ask`
commands; `none` if any command panics (or runs out of fuel). -/
def runCmds (fuel : Nat) : LogicWires → List Cmd → Option (LogicWires × List Nat)
  | lw, [] => some (lw, [])
  | lw, .add s :: t =>
    match lw.add_connection s with
    | some lw' => runCmds fuel lw' t
    | none => none
  | lw, .ask w :: t =>
    match lw.val w fuel with
    | .ok v lw' =>
      match runCmds fuel lw' t with
      | some r => some (r.1, v :: r.2)
      | none => none
    | _ => none

/-- The wire names referenced by a `WireValue`. -/
def wvIdents : WireValue → List String
  | .literal _ => []
  | .ident i => [i]

/-- The wire names referenced by a `WireSource` (its direct dependencies). -/
def srcIdents : WireSource → List String
  | .value v => wvIdents v
  | .gate (.not a) => wvIdents a
  | .gate (.and a b) => wvIdents a ++ wvIdents b
  | .gate (.or a b) => wvIdents a ++ wvIdents b
  | .gate (.lshift a b) => wvIdents a ++ wvIdents b
  | .gate (.rshift a b) => wvIdents a ++ wvIdents b

/-- The direct dependency relation induced by a `Connections` graph. -/
def depends (conns : Connections) (w d : String) : Bool :=
  match alookup conns w with
  | some src => decide (d ∈ srcIdents src)
  | none => false

/-- Naive recursive evaluation of a source's expression, following the spec's
operator semantics: And is `a&b`, Or is `a|b`, the shifts are the 16-bit
unsigned shifts (defined for shift amounts below the width), Not is the
16-bit complement, and a reference evaluates the referenced node's
expression in the same graph. -/
inductive EV (conns : Connections) : WireSource → Nat → Prop
  | val_lit : EV conns (.value (.literal v)) v
  | val_id : alookup conns i = some src → EV conns src v →
      EV conns (.value (.ident i)) v
  | gate_not : EV conns (.value a) x → EV conns (.gate (.not a)) (u16_not x)
  | gate_and : EV conns (.value a) x → EV conns (.value b) y →
      EV conns (.gate (.and a b)) (Nat.land x y)
  | gate_or : EV conns (.value a) x → EV conns (.value b) y →
      EV conns (.gate (.or a b)) (Nat.lor x y)
  | gate_shl : EV conns (.value a) x → EV conns (.value b) y → y < 16 →
      EV conns (.gate (.lshift a b)) (u16_shl x y)
  | gate_shr : EV conns (.value a) x → EV conns (.value b) y → y < 16 →
      EV conns (.gate (.rshift a b)) (u16_shr x y)

/-- A node naively evaluates to `v`: its bound expression does. -/
def evalsTo (conns : Connections) (w : String) (v : Nat) : Prop :=
  ∃ src, alookup conns w = some src ∧ EV conns src v

/-- Acyclicity of the dependency relation, expressed by a rank function that
decreases along dependency edges (equivalent to the absence of cycles on
these finite graphs). -/
def Acyclic (conns : Connections) : Prop :=
  ∃ rank : String → Nat, ∀ w d, depends conns w d = true → rank d < rank w

/-- `w` is reachable from `target` along dependency edges. -/
def Reaches (conns : Connections) (target w : String) : Prop :=
  Relation.ReflTransGen (fun a b => depends conns a b = true) target w

/-- Every node reachable from `target` is a key of `Connections`. -/
def ClosedFrom (conns : Connections) (target : String) : Prop :=
  ∀ u, Reaches conns target u → (alookup conns u).isSome = true

/-- A literal token per the spec's grammar: one or more decimal digits. -/
def isLiteralTok (s : String) : Bool :=
  !s.data.isEmpty && s.data.all Char.isDigit

/-- A node-identifier token per the spec's grammar: starts with a letter. -/
def isIdentTok (s : String) : Bool :=
  match s.data with
  | [] => false
  | c :: _ => rustIsAlpha c

/-- A `<value>` token per the spec's grammar: literal or identifier. -/
def isValueTok (s : String) : Bool :=
  isLiteralTok s || isIdentTok s

/-- The three statement shapes of the spec (section 4.1), read off the spec's
words: `<value> -> <dest>`, `NOT <value> -> <dest>`,
`<value> <OP> <value> -> <dest>` with `<OP>` among AND, OR, LSHIFT, RSHIFT. -/
def matchesStatementShapes (line : String) : Bool :=
  match splitAsciiWs line with
  | [v, arrow, d] => isValueTok v && arrow == "->" && isIdentTok d
  | [n, v, arrow, d] => n == "NOT" && isValueTok v && arrow == "->" && isIdentTok d
  | [v1, o, v2, arrow, d] =>
    isValueTok v1 && (o == "AND" || o == "OR" || o == "LSHIFT" || o == "RSHIFT") &&
      isValueTok v2 && arrow == "->" && isIdentTok d
  | _ => false

/-- The sample circuit of the puzzle (also the source's own unit test). -/
def sampleLines : List String :=
  ["123 -> x", "456 -> y", "x AND y -> d", "x OR y -> e",
   "x LSHIFT 2 -> f", "y RSHIFT 2 -> g", "NOT x -> h", "NOT y -> i"]

/-- The session obtained by loading the sample circuit. -/
def sampleWires : LogicWires :=
  (loadLines ⟨[], []⟩ sampleLines).getD ⟨[], []⟩

/-- A one-wire session for the memoization witness. -/
def xWires : LogicWires := ⟨[], [("x", WireSource.value (WireValue.literal 123))]⟩

/-- An acyclic, closed one-node graph whose gate panics (shift amount 16). -/
def shiftConns : Connections :=
  [("x", .gate (.lshift (.literal 1) (.literal 16)))]

/-- The session of C4's counterexample: bind d, resolve it, re-bind d,
resolve it again. -/
def rebindCmds : List Cmd := [.add "1 -> d", .ask "d", .add "2 -> d", .ask "d"]

/-- The session of C3's counterexample: resolve d, then re-bind d to an
expression referencing the never-defined wire u, then ask for d again. -/
def staleCmds : List Cmd := [.add "1 -> d", .ask "d", .add "u AND 1 -> d", .ask "d"]

/-- The session state after C3's counterexample session. -/
def staleWires : LogicWires :=
  ⟨[("d", 1)],
   [("d", .gate (.and (.ident "u") (.literal 1))), ("d", .value (.literal 1))]⟩

/-- `st'` preserves every entry of `st` (same key, same value). -/
def Extends (st st' : WireState) : Prop :=
  ∀ u x, alookup st u = some x → alookup st' u = some x

/-- Every cached value agrees with the naive recursive evaluation. -/
def Compat (conns : Connections) (st : WireState) : Prop :=
  ∀ u x, alookup st u = some x → evalsTo conns u x

/-- The common evaluation skeleton of the four binary gates. -/
def evBin (l r : WireValue) (st : WireState) (k : Nat → Nat → EvalRes) : EvalRes :=
  match l.val st with
  | .ok a =>
    match r.val st with
    | .ok b => k a b
    | e => e
  | e => e

/-- Number of direct dependencies in `l` not yet in the resolved state. -/
def unresolvedCount (st : WireState) (l : List String) : Nat :=
  (l.filter (fun d => (alookup st d).isNone)).length

/-- A node resolves: from any compatible state, some fuel runs the loop seeded
with just this node to completion, caching the node's naive value. -/
def ResolvesTo (conns : Connections) (w : String) (v : Nat) : Prop :=
  ∀ st : WireState, Compat conns st →
    ∃ f st', valLoop conns f st [w] = .ok st' ∧ alookup st' w = some v ∧
      Compat conns st' ∧ Extends st st'

/-- The session after binding d once. -/
def dConns1 : LogicWires := ⟨[], [("d", .value (.literal 1))]⟩

/-- The session after re-binding d. -/
def dConns2 : LogicWires :=
  ⟨[], [("d", .value (.literal 2)), ("d", .value (.literal 1))]⟩

/-! Basic lemmas about the embedded operations. -/

theorem wv_val_ne_panicked (a : WireValue) (st : WireState) :
    a.val st ≠ .panicked := by
  cases a with
  | literal v => simp [WireValue.val]
  | ident i =>
    simp only [WireValue.val]
    cases alookup st i <;> simp

/-- A successful `LogicWires::val` leaves the returned value cached under the
requested wire, and does not touch the connections. -/
theorem val_ok_cached (lw : LogicWires) (w : String) (fuel v : Nat)
    (lw' : LogicWires) (h : lw.val w fuel = .ok v lw') :
    alookup lw'.state w = some v ∧ lw'.connections = lw.connections := by
  unfold LogicWires.val at h
  cases h0 : alookup lw.state w with
  | some x =>
    simp only [h0] at h
    injection h with hv hlw
    subst hv; subst hlw
    exact ⟨h0, rfl⟩
  | none =>
    simp only [h0] at h
    cases hl : valLoop lw.connections fuel lw.state [w] with
    | ok st =>
      simp only [hl] at h
      cases h1 : alookup st w with
      | some x =>
        simp only [h1] at h
        injection h with hv hlw
        subst hv; subst hlw
        exact ⟨h1, rfl⟩
      | none => simp only [h1] at h; cases h
    | panicked => simp only [hl] at h; cases h
    | fuelOut => simp only [hl] at h; cases h

/-- Claim C7: resolving the same wire twice in one session returns the same
value, and the second call succeeds with zero loop fuel (it answers from the
Resolved cache, without entering the loop or consulting Connections) and
leaves the session unchanged. -/
theorem c7_memoized_idempotent (lw : LogicWires) (w : String) (fuel v : Nat)
    (lw' : LogicWires) (h : lw.val w fuel = .ok v lw') :
    lw'.val w 0 = .ok v lw' := by
  obtain ⟨hc, -⟩ := val_ok_cached lw w fuel v lw' h
  unfold LogicWires.val
  simp only [hc]

/-- Witness for C7 at a concrete session. -/
theorem c7_witness :
    LogicWires.val ⟨[("x", 123)], xWires.connections⟩ "x" 0 =
      .ok 123 ⟨[("x", 123)], xWires.connections⟩ :=
  c7_memoized_idempotent xWires "x" 2 123 ⟨[("x", 123)], xWires.connections⟩ (by decide)

/-- Claim C9: when both operands of a shift gate resolve, a right operand of
16 or more makes `LogicGate::val` panic (debug-profile shift overflow on the
16-bit value type); when every resolved right operand is below 16, the shift
branches never panic. -/
theorem c9_shift_overflow :
    (∀ (st : WireState) (a b : WireValue) (va vb : Nat),
      a.val st = .ok va → b.val st = .ok vb → 16 ≤ vb →
      (LogicGate.lshift a b).val st = .panicked ∧
      (LogicGate.rshift a b).val st = .panicked) ∧
    (∀ (st : WireState) (a b : WireValue),
      (∀ vb, b.val st = .ok vb → vb < 16) →
      (LogicGate.lshift a b).val st ≠ .panicked ∧
      (LogicGate.rshift a b).val st ≠ .panicked) := by
  constructor
  · intro st a b va vb ha hb hge
    constructor <;> simp [LogicGate.val, ha, hb, hge]
  · intro st a b hlt
    cases ha : a.val st with
    | ok va =>
      cases hb : b.val st with
      | ok vb =>
        have := hlt vb hb
        constructor <;> simp [LogicGate.val, ha, hb] <;> omega
      | needs d => constructor <;> simp [LogicGate.val, ha, hb]
      | panicked => exact absurd hb (wv_val_ne_panicked b st)
    | needs d => constructor <;> simp [LogicGate.val, ha]
    | panicked => exact absurd ha (wv_val_ne_panicked a st)

/-- Witness for C9 at concrete gates. -/
theorem c9_witness :
    (LogicGate.lshift (WireValue.literal 1) (WireValue.literal 16)).val [] =
      .panicked ∧
    (LogicGate.rshift (WireValue.literal 2) (WireValue.literal 2)).val [] ≠
      .panicked :=
  ⟨(c9_shift_overflow.1 [] (WireValue.literal 1) (WireValue.literal 16) 1 16
      rfl rfl (by decide)).1,
   (c9_shift_overflow.2 [] (WireValue.literal 2) (WireValue.literal 2)
      (by intro vb h; cases h; decide)).2⟩

theorem shiftConns_no_deps (w d : String) (h : depends shiftConns w d = true) :
    False := by
  by_cases hw : ("x" : String) = w
  · subst hw
    simp [depends, shiftConns, alookup, srcIdents, wvIdents] at h
  · simp [depends, shiftConns, alookup, hw] at h

/-- Counterexample to claim C2 as stated: an acyclic graph in which every
reachable node is a key, yet the resolution loop never empties its stack —
the first gate evaluation panics (shift amount 16). -/
theorem c2_counterexample :
    Acyclic shiftConns ∧ ClosedFrom shiftConns "x" ∧
    (∀ f st', valLoop shiftConns f [] ["x"] ≠ .ok st') ∧
    (∀ f v lw', LogicWires.val ⟨[], shiftConns⟩ "x" f ≠ .ok v lw') := by
  refine ⟨⟨fun _ => 0, fun w d h => absurd h (fun h => shiftConns_no_deps w d h)⟩,
    ?_, ?_, ?_⟩
  · intro u hr
    induction hr with
    | refl => decide
    | tail h1 h2 ih => exact absurd h2 (fun h => shiftConns_no_deps _ _ h)
  · intro f st'
    cases f with
    | zero => simp [valLoop]
    | succ f =>
      simp [valLoop, shiftConns, alookup, WireSource.val, LogicGate.val,
        WireValue.val]
  · intro f v lw'
    cases f with
    | zero => simp [LogicWires.val, alookup, valLoop]
    | succ f =>
      simp [LogicWires.val, valLoop, shiftConns, alookup, WireSource.val,
        LogicGate.val, WireValue.val]

/-- Counterexample to claim C4 as stated: after `value_of` has already
resolved d, a second `add_connection` binding d does not change what
`value_of` returns — both calls return 1, although the most recent binding
is the expression `2`. -/
theorem c4_counterexample :
    runCmds 4 ⟨[], []⟩ rebindCmds =
      some (⟨[("d", 1)], [("d", .value (.literal 2)), ("d", .value (.literal 1))]⟩,
        [1, 1]) ∧
    parseStatement "2 -> d" = some ("d", .value (.literal 2)) := by
  constructor <;> decide

/-- Counterexample to claim C3 as stated: a session in which `value_of` is
called on d whose transitive dependencies (in the current Connections)
include the undefined identifier u, yet the call returns 1 from the Resolved
cache instead of panicking. -/
theorem c3_counterexample :
    runCmds 4 ⟨[], []⟩ staleCmds = some (staleWires, [1, 1]) ∧
    depends staleWires.connections "d" "u" = true ∧
    alookup staleWires.connections "u" = none :=
  ⟨by decide, by decide, by decide⟩

/-- Counterexample to claim C10 as stated: the statement `123 -> 45x`
contains the token `45x`, which starts with a digit but is not a valid
16-bit numeral, yet `add_connection` does not panic — it inserts the binding
under the key `45x`. -/
theorem c10_counterexample :
    parseStatement "123 -> 45x" = some ("45x", .value (.literal 123)) ∧
    LogicWires.add_connection ⟨[], []⟩ "123 -> 45x" =
      some ⟨[], [("45x", .value (.literal 123))]⟩ ∧
    "45x".data.head?.any Char.isDigit = true ∧
    rustParseU16 "45x" = none :=
  ⟨by decide, by decide, by decide, by decide⟩

/-- Counterexample to claim C6 as stated: `123 -> x tail` matches none of the
three statement shapes (it has a trailing extra token), yet `add_connection`
does not panic — it inserts x bound to the literal 123. -/
theorem c6_counterexample :
    matchesStatementShapes "123 -> x tail" = false ∧
    LogicWires.add_connection ⟨[], []⟩ "123 -> x tail" =
      some ⟨[], [("x", .value (.literal 123))]⟩ :=
  ⟨by decide, by decide⟩

/-- Counterexample to claim C5 as stated: two permutations of the same set of
statements (which bind the same destination twice) resolve a to different
values, 2 versus 1. -/
theorem c5_counterexample :
    ["1 -> a", "2 -> a"].Perm ["2 -> a", "1 -> a"] ∧
    (loadLines ⟨[], []⟩ ["1 -> a", "2 -> a"]).map
        (fun lw => (lw.val "a" 5).value?) = some (some 2) ∧
    (loadLines ⟨[], []⟩ ["2 -> a", "1 -> a"]).map
        (fun lw => (lw.val "a" 5).value?) = some (some 1) :=
  ⟨List.Perm.swap _ _ _, by decide, by decide⟩

/-! Machinery for the loop-correctness and termination proofs. -/

theorem extends_trans {s1 s2 s3 : WireState} (h1 : Extends s1 s2)
    (h2 : Extends s2 s3) : Extends s1 s3 :=
  fun u x h => h2 u x (h1 u x h)

theorem and_val_evBin (l r : WireValue) (st : WireState) :
    (LogicGate.and l r).val st = evBin l r st (fun a b => .ok (Nat.land a b)) := rfl

theorem or_val_evBin (l r : WireValue) (st : WireState) :
    (LogicGate.or l r).val st = evBin l r st (fun a b => .ok (Nat.lor a b)) := rfl

theorem lshift_val_evBin (l r : WireValue) (st : WireState) :
    (LogicGate.lshift l r).val st =
      evBin l r st (fun a b => if 16 ≤ b then .panicked else .ok (u16_shl a b)) := rfl

theorem rshift_val_evBin (l r : WireValue) (st : WireState) :
    (LogicGate.rshift l r).val st =
      evBin l r st (fun a b => if 16 ≤ b then .panicked else .ok (u16_shr a b)) := rfl

theorem wv_val_needs {a : WireValue} {st : WireState} {d : String}
    (h : a.val st = .needs d) : a = .ident d ∧ alookup st d = none := by
  cases a with
  | literal v => simp [WireValue.val] at h
  | ident i =>
    simp only [WireValue.val] at h
    cases hl : alookup st i with
    | some v => simp [hl] at h
    | none =>
      simp only [hl] at h
      injection h with h
      subst h
      exact ⟨rfl, hl⟩

theorem wv_val_ok_mono {st st' : WireState} (hE : Extends st st')
    {a : WireValue} {v : Nat} (h : a.val st = .ok v) : a.val st' = .ok v := by
  cases a with
  | literal w => simpa [WireValue.val] using h
  | ident i =>
    simp only [WireValue.val] at h ⊢
    cases hl : alookup st i with
    | some x =>
      simp only [hl] at h
      injection h with h
      subst h
      simp [hE i _ hl]
    | none => simp [hl] at h

theorem evBin_needs {l r : WireValue} {st : WireState} {d : String}
    {k : Nat → Nat → EvalRes} (hk : ∀ a b e, k a b = .needs e → False)
    (h : evBin l r st k = .needs d) :
    (l = .ident d ∨ r = .ident d) ∧ alookup st d = none := by
  unfold evBin at h
  cases hl : l.val st with
  | ok a =>
    simp only [hl] at h
    cases hr : r.val st with
    | ok b => simp only [hr] at h; exact absurd h (fun h => hk a b d h)
    | needs e =>
      simp only [hr] at h
      injection h with h
      subst h
      obtain ⟨he, hn⟩ := wv_val_needs hr
      exact ⟨Or.inr he, hn⟩
    | panicked => exact absurd hr (wv_val_ne_panicked r st)
  | needs e =>
    simp only [hl] at h
    injection h with h
    subst h
    obtain ⟨he, hn⟩ := wv_val_needs hl
    exact ⟨Or.inl he, hn⟩
  | panicked => exact absurd hl (wv_val_ne_panicked l st)

theorem evBin_intro {l r : WireValue} {st : WireState} {a b : Nat}
    (k : Nat → Nat → EvalRes) (hl : l.val st = .ok a) (hr : r.val st = .ok b) :
    evBin l r st k = k a b := by
  simp [evBin, hl, hr]

theorem evBin_eq_ok {l r : WireValue} {st : WireState} {v : Nat}
    {k : Nat → Nat → EvalRes} (h : evBin l r st k = .ok v) :
    ∃ a b, l.val st = .ok a ∧ r.val st = .ok b ∧ k a b = .ok v := by
  unfold evBin at h
  cases hl : l.val st with
  | ok a =>
    simp only [hl] at h
    cases hr : r.val st with
    | ok b => simp only [hr] at h; exact ⟨a, b, rfl, rfl, h⟩
    | needs e => simp only [hr] at h; cases h
    | panicked => simp only [hr] at h; cases h
  | needs e => simp only [hl] at h; cases h
  | panicked => simp only [hl] at h; cases h

theorem src_val_needs {src : WireSource} {st : WireState} {d : String}
    (h : src.val st = .needs d) :
    d ∈ srcIdents src ∧ alookup st d = none := by
  cases src with
  | value v =>
    obtain ⟨rfl, hn⟩ := wv_val_needs h
    exact ⟨by simp [srcIdents, wvIdents], hn⟩
  | gate g =>
    cases g with
    | not a =>
      simp only [WireSource.val, LogicGate.val] at h
      cases ha : a.val st with
      | ok x => simp [ha] at h
      | needs e =>
        simp only [ha] at h
        injection h with h
        subst h
        obtain ⟨rfl, hn⟩ := wv_val_needs ha
        exact ⟨by simp [srcIdents, wvIdents], hn⟩
      | panicked => exact absurd ha (wv_val_ne_panicked a st)
    | and l r =>
      rw [WireSource.val, and_val_evBin] at h
      obtain ⟨hor, hn⟩ := evBin_needs (fun a b e h => by simp at h) h
      refine ⟨?_, hn⟩
      rcases hor with rfl | rfl <;> simp [srcIdents, wvIdents]
    | or l r =>
      rw [WireSource.val, or_val_evBin] at h
      obtain ⟨hor, hn⟩ := evBin_needs (fun a b e h => by simp at h) h
      refine ⟨?_, hn⟩
      rcases hor with rfl | rfl <;> simp [srcIdents, wvIdents]
    | lshift l r =>
      rw [WireSource.val, lshift_val_evBin] at h
      obtain ⟨hor, hn⟩ := evBin_needs
        (fun a b e h => by by_cases hb : 16 ≤ b <;> simp [hb] at h) h
      refine ⟨?_, hn⟩
      rcases hor with rfl | rfl <;> simp [srcIdents, wvIdents]
    | rshift l r =>
      rw [WireSource.val, rshift_val_evBin] at h
      obtain ⟨hor, hn⟩ := evBin_needs
        (fun a b e h => by by_cases hb : 16 ≤ b <;> simp [hb] at h) h
      refine ⟨?_, hn⟩
      rcases hor with rfl | rfl <;> simp [srcIdents, wvIdents]

theorem src_val_ok_mono {st st' : WireState} (hE : Extends st st')
    {src : WireSource} {v : Nat} (h : src.val st = .ok v) :
    src.val st' = .ok v := by
  cases src with
  | value w => exact wv_val_ok_mono hE h
  | gate g =>
    cases g with
    | not a =>
      simp only [WireSource.val, LogicGate.val] at h ⊢
      cases ha : a.val st with
      | ok x =>
        simp only [ha] at h
        simp [wv_val_ok_mono hE ha, h]
      | needs e => simp [ha] at h
      | panicked => exact absurd ha (wv_val_ne_panicked a st)
    | and l r =>
      rw [WireSource.val, and_val_evBin] at h ⊢
      obtain ⟨a, b, hl, hr, hk⟩ := evBin_eq_ok h
      rw [evBin_intro _ (wv_val_ok_mono hE hl) (wv_val_ok_mono hE hr)]
      exact hk
    | or l r =>
      rw [WireSource.val, or_val_evBin] at h ⊢
      obtain ⟨a, b, hl, hr, hk⟩ := evBin_eq_ok h
      rw [evBin_intro _ (wv_val_ok_mono hE hl) (wv_val_ok_mono hE hr)]
      exact hk
    | lshift l r =>
      rw [WireSource.val, lshift_val_evBin] at h ⊢
      obtain ⟨a, b, hl, hr, hk⟩ := evBin_eq_ok h
      rw [evBin_intro _ (wv_val_ok_mono hE hl) (wv_val_ok_mono hE hr)]
      exact hk
    | rshift l r =>
      rw [WireSource.val, rshift_val_evBin] at h ⊢
      obtain ⟨a, b, hl, hr, hk⟩ := evBin_eq_ok h
      rw [evBin_intro _ (wv_val_ok_mono hE hl) (wv_val_ok_mono hE hr)]
      exact hk

theorem ev_det {conns : Connections} {src : WireSource} {v : Nat}
    (h : EV conns src v) : ∀ {v'}, EV conns src v' → v = v' := by
  induction h with
  | val_lit =>
    intro v' h'
    cases h'
    rfl
  | val_id hlk hev ih =>
    intro v' h'
    cases h' with
    | val_id hlk' hev' =>
      rw [hlk] at hlk'
      injection hlk' with he
      subst he
      exact ih hev'
  | gate_not hev ih =>
    intro v' h'
    cases h' with
    | gate_not hev' => rw [ih hev']
  | gate_and ha hb iha ihb =>
    intro v' h'
    cases h' with
    | gate_and ha' hb' => rw [iha ha', ihb hb']
  | gate_or ha hb iha ihb =>
    intro v' h'
    cases h' with
    | gate_or ha' hb' => rw [iha ha', ihb hb']
  | gate_shl ha hb hy iha ihb =>
    intro v' h'
    cases h' with
    | gate_shl ha' hb' hy' => rw [iha ha', ihb hb']
  | gate_shr ha hb hy iha ihb =>
    intro v' h'
    cases h' with
    | gate_shr ha' hb' hy' => rw [iha ha', ihb hb']

theorem evalsTo_det {conns : Connections} {w : String} {v v' : Nat}
    (h : evalsTo conns w v) (h' : evalsTo conns w v') : v = v' := by
  obtain ⟨s, hl, he⟩ := h
  obtain ⟨s', hl', he'⟩ := h'
  rw [hl] at hl'
  injection hl' with hs
  subst hs
  exact ev_det he he'

/-- An operand with a naive value either evaluates to that value now, or is an
unresolved reference (and the reference has a naive value). -/
theorem wv_dichotomy {conns : Connections} {a : WireValue} {x : Nat}
    (hEV : EV conns (.value a) x) {st : WireState} (hC : Compat conns st) :
    a.val st = .ok x ∨
      ∃ i, a = .ident i ∧ a.val st = .needs i ∧ alookup st i = none ∧
        evalsTo conns i x := by
  cases a with
  | literal v =>
    cases hEV
    exact Or.inl rfl
  | ident i =>
    cases hEV with
    | val_id hlk hev =>
      cases hl : alookup st i with
      | some y =>
        have h1 : evalsTo conns i y := hC i y hl
        have h2 : evalsTo conns i x := ⟨_, hlk, hev⟩
        have hyx : y = x := evalsTo_det h1 h2
        subst hyx
        exact Or.inl (by simp [WireValue.val, hl])
      | none =>
        exact Or.inr ⟨i, rfl, by simp [WireValue.val, hl], hl, ⟨_, hlk, hev⟩⟩

theorem filter_length_le {α : Type} (l : List α) (p q : α → Bool)
    (h : ∀ x ∈ l, q x = true → p x = true) :
    (l.filter q).length ≤ (l.filter p).length := by
  induction l with
  | nil => simp
  | cons a t ih =>
    have ht : ∀ x ∈ t, q x = true → p x = true := fun x hx => h x (by simp [hx])
    by_cases hq : q a = true
    · have hp := h a (by simp) hq
      simp only [List.filter_cons, hq, hp, if_true, List.length_cons]
      exact Nat.succ_le_succ (ih ht)
    · by_cases hp : p a = true
      · simp only [List.filter_cons, hq, hp, if_true, if_false, List.length_cons]
        exact Nat.le_succ_of_le (ih ht)
      · simp only [List.filter_cons, hq, hp, if_false]
        exact ih ht

theorem filter_length_lt {α : Type} (l : List α) (p q : α → Bool)
    (h : ∀ x ∈ l, q x = true → p x = true) (a : α) (ha : a ∈ l)
    (hpa : p a = true) (hqa : q a = false) :
    (l.filter q).length < (l.filter p).length := by
  induction l with
  | nil => cases ha
  | cons b t ih =>
    have ht : ∀ x ∈ t, q x = true → p x = true := fun x hx => h x (by simp [hx])
    rcases List.mem_cons.mp ha with rfl | hat
    · simp only [List.filter_cons, hqa, hpa, if_true, if_false, List.length_cons]
      exact Nat.lt_succ_of_le (filter_length_le t p q ht)
    · by_cases hqb : q b = true
      · have hpb := h b (by simp) hqb
        simp only [List.filter_cons, hqb, hpb, if_true, List.length_cons]
        exact Nat.succ_lt_succ (ih ht hat)
      · by_cases hpb : p b = true
        · simp only [List.filter_cons, hqb, hpb, if_true, if_false, List.length_cons]
          exact Nat.lt_succ_of_lt (ih ht hat)
        · simp only [List.filter_cons, hqb, hpb, if_false]
          exact ih ht hat

theorem unresolvedCount_lt {st st' : WireState} {l : List String} {i : String}
    (hkeys : ∀ u, (alookup st u).isSome = true → (alookup st' u).isSome = true)
    (hi : i ∈ l) (hnone : alookup st i = none)
    (hsome : (alookup st' i).isSome = true) :
    unresolvedCount st' l < unresolvedCount st l := by
  have hmono : ∀ x ∈ l, (fun d => (alookup st' d).isNone) x = true →
      (fun d => (alookup st d).isNone) x = true := by
    intro x hx hq
    cases hp : alookup st x with
    | some y =>
      have hs := hkeys x (by simp [hp])
      simp only at hq
      rw [Option.isNone_iff_eq_none] at hq
      rw [hq] at hs
      simp at hs
    | none => simp [hp]
  refine filter_length_lt l _ _ hmono i hi ?_ ?_
  · simp [hnone]
  · cases ho : alookup st' i with
    | some y => simp
    | none => rw [ho] at hsome; simp at hsome

theorem valLoop_mono (conns : Connections) :
    ∀ (f : Nat) (st : WireState) (stack : List String) (r : RunRes),
      valLoop conns f st stack = r → r ≠ .fuelOut →
      ∀ f', f ≤ f' → valLoop conns f' st stack = r := by
  intro f
  induction f with
  | zero =>
    intro st stack r h hne f' hf
    cases stack with
    | nil => simpa [valLoop] using h
    | cons w t =>
      simp only [valLoop] at h
      exact absurd h.symm hne
  | succ f ih =>
    intro st stack r h hne f' hf
    cases stack with
    | nil => simpa [valLoop] using h
    | cons w t =>
      obtain ⟨f'', rfl⟩ : ∃ f'', f' = f'' + 1 := ⟨f' - 1, by omega⟩
      simp only [valLoop] at h ⊢
      cases hc : alookup conns w with
      | none => simp only [hc] at h ⊢; exact h
      | some src =>
        simp only [hc] at h ⊢
        cases hv : src.val st with
        | ok v => simp only [hv] at h ⊢; exact ih _ _ _ h hne f'' (by omega)
        | needs d => simp only [hv] at h ⊢; exact ih _ _ _ h hne f'' (by omega)
        | panicked => simp only [hv] at h ⊢; exact h

theorem valLoop_append_ok (conns : Connections) :
    ∀ (f1 : Nat) (st : WireState) (s1 s2 : List String) (st1 : WireState),
      valLoop conns f1 st s1 = .ok st1 →
      ∀ (f2 : Nat) (r : RunRes), valLoop conns f2 st1 s2 = r → r ≠ .fuelOut →
      valLoop conns (f1 + f2) st (s1 ++ s2) = r := by
  intro f1
  induction f1 with
  | zero =>
    intro st s1 s2 st1 h f2 r h2 hne
    cases s1 with
    | nil =>
      obtain rfl : st = st1 := by injection h
      simpa using valLoop_mono conns f2 st s2 r h2 hne (0 + f2) (by omega)
    | cons w t => simp [valLoop] at h
  | succ f ih =>
    intro st s1 s2 st1 h f2 r h2 hne
    cases s1 with
    | nil =>
      obtain rfl : st = st1 := by injection h
      exact valLoop_mono conns f2 st s2 r h2 hne (f + 1 + f2) (by omega)
    | cons w t =>
      have hf : f + 1 + f2 = (f + f2) + 1 := by omega
      rw [List.cons_append, hf]
      simp only [valLoop] at h ⊢
      cases hc : alookup conns w with
      | none => simp only [hc] at h; cases h
      | some src =>
        simp only [hc] at h ⊢
        cases hv : src.val st with
        | ok v =>
          simp only [hv] at h ⊢
          exact ih _ _ _ _ h f2 r h2 hne
        | needs d =>
          simp only [hv] at h ⊢
          have := ih _ _ _ _ h f2 r h2 hne
          simpa using this
        | panicked => simp only [hv] at h; cases h

theorem valLoop_append_panicked (conns : Connections) :
    ∀ (f1 : Nat) (st : WireState) (s1 s2 : List String),
      valLoop conns f1 st s1 = .panicked →
      valLoop conns f1 st (s1 ++ s2) = .panicked := by
  intro f1
  induction f1 with
  | zero =>
    intro st s1 s2 h
    cases s1 with
    | nil => simp [valLoop] at h
    | cons w t => simp [valLoop] at h
  | succ f ih =>
    intro st s1 s2 h
    cases s1 with
    | nil => simp [valLoop] at h
    | cons w t =>
      rw [List.cons_append]
      simp only [valLoop] at h ⊢
      cases hc : alookup conns w with
      | none => simp only [hc] at h ⊢
      | some src =>
        simp only [hc] at h ⊢
        cases hv : src.val st with
        | ok v =>
          simp only [hv] at h ⊢
          exact ih _ _ _ h
        | needs d =>
          simp only [hv] at h ⊢
          have := ih _ (d :: w :: t) s2 h
          simpa using this
        | panicked => simp only [hv]

theorem resolve_ok_step {conns : Connections} {w : String} {src : WireSource}
    {v : Nat} (hw : alookup conns w = some src) (hev : evalsTo conns w v)
    {st : WireState} (hC : Compat conns st) (hok : src.val st = .ok v) :
    ∃ f st', valLoop conns f st [w] = .ok st' ∧ alookup st' w = some v ∧
      Compat conns st' ∧ Extends st st' := by
  refine ⟨1, (w, v) :: st, ?_, ?_, ?_, ?_⟩
  · simp [valLoop, hw, hok]
  · simp [alookup]
  · intro u x hl
    by_cases hwu : w = u
    · subst hwu
      simp [alookup] at hl
      subst hl
      exact hev
    · simp only [alookup, if_neg hwu] at hl
      exact hC u x hl
  · intro u x hl
    by_cases hwu : w = u
    · subst hwu
      have hx : evalsTo conns w x := hC w x hl
      have hxv : x = v := evalsTo_det hx hev
      subst hxv
      simp [alookup]
    · simp [alookup, hwu, hl]

theorem node_resolve_gen (conns : Connections) (w : String) (src : WireSource)
    (v : Nat) (hw : alookup conns w = some src) (hev : evalsTo conns w v)
    (H : ∀ st, Compat conns st →
      src.val st = .ok v ∨
        ∃ i x, src.val st = .needs i ∧ alookup st i = none ∧
          i ∈ srcIdents src ∧ ResolvesTo conns i x) :
    ResolvesTo conns w v := by
  have main : ∀ n (st : WireState), Compat conns st →
      unresolvedCount st (srcIdents src) ≤ n →
      ∃ f st', valLoop conns f st [w] = .ok st' ∧ alookup st' w = some v ∧
        Compat conns st' ∧ Extends st st' := by
    intro n
    induction n with
    | zero =>
      intro st hC hcnt
      rcases H st hC with hok | ⟨i, x, hneeds, hnone, hmem, hRi⟩
      · exact resolve_ok_step hw hev hC hok
      · exfalso
        have hi : i ∈ (srcIdents src).filter (fun d => (alookup st d).isNone) :=
          List.mem_filter.mpr ⟨hmem, by simp [hnone]⟩
        have hpos := List.length_pos.mpr (List.ne_nil_of_mem hi)
        unfold unresolvedCount at hcnt
        omega
    | succ n ih =>
      intro st hC hcnt
      rcases H st hC with hok | ⟨i, x, hneeds, hnone, hmem, hRi⟩
      · exact resolve_ok_step hw hev hC hok
      · obtain ⟨f1, st1, hrun1, hlk1, hC1, hE1⟩ := hRi st hC
        have hdec : unresolvedCount st1 (srcIdents src) <
            unresolvedCount st (srcIdents src) :=
          unresolvedCount_lt
            (fun u hu => by
              obtain ⟨y, hy⟩ := Option.isSome_iff_exists.mp hu
              simp [hE1 u y hy])
            hmem hnone (by simp [hlk1])
        obtain ⟨f2, st2, hrun2, hlk2, hC2, hE2⟩ := ih st1 hC1 (by omega)
        refine ⟨f1 + f2 + 1, st2, ?_, hlk2, hC2, extends_trans hE1 hE2⟩
        have happ : valLoop conns (f1 + f2) st ([i] ++ [w]) = .ok st2 :=
          valLoop_append_ok conns f1 st [i] [w] st1 hrun1 f2 (.ok st2) hrun2
            (by simp)
        calc valLoop conns (f1 + f2 + 1) st [w]
            = valLoop conns (f1 + f2) st [i, w] := by
              simp only [valLoop, hw, hneeds]
          _ = .ok st2 := by simpa using happ
  intro st hC
  exact main (unresolvedCount st (srcIdents src)) st hC le_rfl

theorem src_resolve {conns : Connections} {src : WireSource} {v : Nat}
    (h : EV conns src v) :
    (∀ w, alookup conns w = some src → ResolvesTo conns w v) ∧
    (∀ i, src = .value (.ident i) → ResolvesTo conns i v) := by
  induction h with
  | @val_lit v =>
    refine ⟨?_, ?_⟩
    · intro w hw
      refine node_resolve_gen conns w _ v hw ⟨_, hw, EV.val_lit⟩ ?_
      intro st hC
      exact Or.inl rfl
    · intro i hi
      simp at hi
  | @val_id i src' v hlk hev ih =>
    have hRi : ResolvesTo conns i v := ih.1 i hlk
    refine ⟨?_, ?_⟩
    · intro w hw
      refine node_resolve_gen conns w _ v hw ⟨_, hw, EV.val_id hlk hev⟩ ?_
      intro st hC
      cases hl : alookup st i with
      | some y =>
        have h1 : evalsTo conns i y := hC i y hl
        have h2 : evalsTo conns i v := ⟨_, hlk, hev⟩
        have hyv : y = v := evalsTo_det h1 h2
        subst hyv
        exact Or.inl (by simp [WireSource.val, WireValue.val, hl])
      | none =>
        refine Or.inr ⟨i, v, ?_, hl, ?_, hRi⟩
        · simp [WireSource.val, WireValue.val, hl]
        · simp [srcIdents, wvIdents]
    · intro i' hi'
      injection hi' with h1
      injection h1 with h2
      subst h2
      exact hRi
  | @gate_not a x hev ih =>
    refine ⟨?_, ?_⟩
    · intro w hw
      refine node_resolve_gen conns w _ _ hw ⟨_, hw, EV.gate_not hev⟩ ?_
      intro st hC
      rcases wv_dichotomy hev hC with haok | ⟨i, hai, hneedsa, hnonea, heva⟩
      · exact Or.inl (by simp [WireSource.val, LogicGate.val, haok])
      · refine Or.inr ⟨i, x, ?_, hnonea, ?_, ih.2 i (by rw [hai])⟩
        · simp [WireSource.val, LogicGate.val, hneedsa]
        · subst hai
          simp [srcIdents, wvIdents]
    · intro i hi
      simp at hi
  | @gate_and a x b y ha hb iha ihb =>
    refine ⟨?_, ?_⟩
    · intro w hw
      refine node_resolve_gen conns w _ _ hw ⟨_, hw, EV.gate_and ha hb⟩ ?_
      intro st hC
      rcases wv_dichotomy ha hC with haok | ⟨i, hai, hneedsa, hnonea, heva⟩
      · rcases wv_dichotomy hb hC with hbok | ⟨j, hbj, hneedsb, hnoneb, hevb⟩
        · refine Or.inl ?_
          show (LogicGate.and a b).val st = _
          rw [and_val_evBin, evBin_intro _ haok hbok]
        · refine Or.inr ⟨j, y, ?_, hnoneb, ?_, ihb.2 j (by rw [hbj])⟩
          · show (LogicGate.and a b).val st = _
            rw [and_val_evBin]
            simp [evBin, haok, hneedsb]
          · subst hbj
            simp [srcIdents, wvIdents]
      · refine Or.inr ⟨i, x, ?_, hnonea, ?_, iha.2 i (by rw [hai])⟩
        · show (LogicGate.and a b).val st = _
          rw [and_val_evBin]
          simp [evBin, hneedsa]
        · subst hai
          simp [srcIdents, wvIdents]
    · intro i hi
      simp at hi
  | @gate_or a x b y ha hb iha ihb =>
    refine ⟨?_, ?_⟩
    · intro w hw
      refine node_resolve_gen conns w _ _ hw ⟨_, hw, EV.gate_or ha hb⟩ ?_
      intro st hC
      rcases wv_dichotomy ha hC with haok | ⟨i, hai, hneedsa, hnonea, heva⟩
      · rcases wv_dichotomy hb hC with hbok | ⟨j, hbj, hneedsb, hnoneb, hevb⟩
        · refine Or.inl ?_
          show (LogicGate.or a b).val st = _
          rw [or_val_evBin, evBin_intro _ haok hbok]
        · refine Or.inr ⟨j, y, ?_, hnoneb, ?_, ihb.2 j (by rw [hbj])⟩
          · show (LogicGate.or a b).val st = _
            rw [or_val_evBin]
            simp [evBin, haok, hneedsb]
          · subst hbj
            simp [srcIdents, wvIdents]
      · refine Or.inr ⟨i, x, ?_, hnonea, ?_, iha.2 i (by rw [hai])⟩
        · show (LogicGate.or a b).val st = _
          rw [or_val_evBin]
          simp [evBin, hneedsa]
        · subst hai
          simp [srcIdents, wvIdents]
    · intro i hi
      simp at hi
  | @gate_shl a x b y ha hb hy iha ihb =>
    refine ⟨?_, ?_⟩
    · intro w hw
      refine node_resolve_gen conns w _ _ hw ⟨_, hw, EV.gate_shl ha hb hy⟩ ?_
      intro st hC
      rcases wv_dichotomy ha hC with haok | ⟨i, hai, hneedsa, hnonea, heva⟩
      · rcases wv_dichotomy hb hC with hbok | ⟨j, hbj, hneedsb, hnoneb, hevb⟩
        · refine Or.inl ?_
          show (LogicGate.lshift a b).val st = _
          rw [lshift_val_evBin, evBin_intro _ haok hbok]
          simp [Nat.not_le.mpr hy]
        · refine Or.inr ⟨j, y, ?_, hnoneb, ?_, ihb.2 j (by rw [hbj])⟩
          · show (LogicGate.lshift a b).val st = _
            rw [lshift_val_evBin]
            simp [evBin, haok, hneedsb]
          · subst hbj
            simp [srcIdents, wvIdents]
      · refine Or.inr ⟨i, x, ?_, hnonea, ?_, iha.2 i (by rw [hai])⟩
        · show (LogicGate.lshift a b).val st = _
          rw [lshift_val_evBin]
          simp [evBin, hneedsa]
        · subst hai
          simp [srcIdents, wvIdents]
    · intro i hi
      simp at hi
  | @gate_shr a x b y ha hb hy iha ihb =>
    refine ⟨?_, ?_⟩
    · intro w hw
      refine node_resolve_gen conns w _ _ hw ⟨_, hw, EV.gate_shr ha hb hy⟩ ?_
      intro st hC
      rcases wv_dichotomy ha hC with haok | ⟨i, hai, hneedsa, hnonea, heva⟩
      · rcases wv_dichotomy hb hC with hbok | ⟨j, hbj, hneedsb, hnoneb, hevb⟩
        · refine Or.inl ?_
          show (LogicGate.rshift a b).val st = _
          rw [rshift_val_evBin, evBin_intro _ haok hbok]
          simp [Nat.not_le.mpr hy]
        · refine Or.inr ⟨j, y, ?_, hnoneb, ?_, ihb.2 j (by rw [hbj])⟩
          · show (LogicGate.rshift a b).val st = _
            rw [rshift_val_evBin]
            simp [evBin, haok, hneedsb]
          · subst hbj
            simp [srcIdents, wvIdents]
      · refine Or.inr ⟨i, x, ?_, hnonea, ?_, iha.2 i (by rw [hai])⟩
        · show (LogicGate.rshift a b).val st = _
          rw [rshift_val_evBin]
          simp [evBin, hneedsa]
        · subst hai
          simp [srcIdents, wvIdents]
    · intro i hi
      simp at hi

/-- Claim C1: on an acyclic Connections graph in which every node reachable
from the target is a key, `LogicWires::val` returns exactly the value of the
naive recursive evaluation of the target's expression (with the operator
semantics of `EV`); and on the sample circuit with x = 123 and y = 456, the
resolved values are AND 72, OR 507, LSHIFT 2 492, RSHIFT 2 114, NOT x 65412,
NOT y 65079, and x itself resolves to its literal 123. -/
theorem c1_resolver_matches_naive_eval :
    (∀ (conns : Connections) (target : String) (v : Nat),
      Acyclic conns → ClosedFrom conns target → evalsTo conns target v →
      ∃ (f : Nat) (lw' : LogicWires),
        LogicWires.val ⟨[], conns⟩ target f = .ok v lw') ∧
    ((sampleWires.val "d" 50).value? = some 72 ∧
     (sampleWires.val "e" 50).value? = some 507 ∧
     (sampleWires.val "f" 50).value? = some 492 ∧
     (sampleWires.val "g" 50).value? = some 114 ∧
     (sampleWires.val "h" 50).value? = some 65412 ∧
     (sampleWires.val "i" 50).value? = some 65079 ∧
     (sampleWires.val "x" 50).value? = some 123) := by
  constructor
  · intro conns target v _hacyc _hclosed hev
    obtain ⟨src, hlk, hEV⟩ := hev
    have hR : ResolvesTo conns target v := (src_resolve hEV).1 target hlk
    obtain ⟨f, st', hrun, hlkv, -, -⟩ := hR [] (by intro u x h; simp [alookup] at h)
    refine ⟨f, ⟨st', conns⟩, ?_⟩
    unfold LogicWires.val
    simp [alookup, hrun, hlkv]
  · exact ⟨by decide, by decide, by decide, by decide, by decide, by decide,
      by decide⟩

theorem xconns_no_deps (w d : String)
    (h : depends xWires.connections w d = true) : False := by
  by_cases hw : ("x" : String) = w
  · subst hw
    simp [depends, xWires, alookup, srcIdents, wvIdents] at h
  · simp [depends, xWires, alookup, hw] at h

theorem xconns_acyclic : Acyclic xWires.connections :=
  ⟨fun _ => 0, fun w d h => absurd h (fun h => xconns_no_deps w d h)⟩

theorem xconns_closed : ClosedFrom xWires.connections "x" := by
  intro u hr
  induction hr with
  | refl => decide
  | tail h1 h2 ih => exact absurd h2 (fun h => xconns_no_deps _ _ h)

/-- Witness for C1 at a concrete one-wire graph. -/
theorem c1_witness :
    (Acyclic xWires.connections ∧ ClosedFrom xWires.connections "x" ∧
      evalsTo xWires.connections "x" 123) ∧
    ∃ f lw', LogicWires.val ⟨[], xWires.connections⟩ "x" f = .ok 123 lw' := by
  have h3 : evalsTo xWires.connections "x" 123 :=
    ⟨.value (.literal 123), by decide, EV.val_lit⟩
  exact ⟨⟨xconns_acyclic, xconns_closed, h3⟩,
    c1_resolver_matches_naive_eval.1 xWires.connections "x" 123
      xconns_acyclic xconns_closed h3⟩

/-! Termination of the resolution loop on acyclic, closed graphs. -/

theorem loop_step_ok {conns : Connections} {w : String} {src : WireSource}
    {v : Nat} {st : WireState} (hw : alookup conns w = some src)
    (hv : src.val st = .ok v) :
    ∃ f r, valLoop conns f st [w] = r ∧ r ≠ .fuelOut ∧
      ∀ st', r = .ok st' →
        (∀ u, (alookup st u).isSome = true → (alookup st' u).isSome = true) ∧
        (alookup st' w).isSome = true := by
  refine ⟨1, .ok ((w, v) :: st), by simp [valLoop, hw, hv], by simp, ?_⟩
  intro st' h
  injection h with h
  subst h
  constructor
  · intro u hu
    by_cases hwu : w = u
    · subst hwu
      simp [alookup]
    · simp only [alookup, if_neg hwu]
      exact hu
  · simp [alookup]

theorem loop_step_panic {conns : Connections} {w : String} {src : WireSource}
    {st : WireState} (hw : alookup conns w = some src)
    (hv : src.val st = .panicked) :
    ∃ f r, valLoop conns f st [w] = r ∧ r ≠ .fuelOut ∧
      ∀ st', r = .ok st' →
        (∀ u, (alookup st u).isSome = true → (alookup st' u).isSome = true) ∧
        (alookup st' w).isSome = true :=
  ⟨1, .panicked, by simp [valLoop, hw, hv], by simp, fun st' h => by cases h⟩

/-- On a closed, rank-ordered graph, the loop seeded with a reachable wire
finishes in finitely many iterations from any state: it either empties the
stack (having cached the wire) or panics. -/
theorem loop_term (conns : Connections) (rank : String → Nat)
    (hrank : ∀ w d, depends conns w d = true → rank d < rank w)
    (target : String) (hclosed : ClosedFrom conns target) :
    ∀ n w, rank w ≤ n → Reaches conns target w →
      ∀ st, ∃ f r, valLoop conns f st [w] = r ∧ r ≠ .fuelOut ∧
        ∀ st', r = .ok st' →
          (∀ u, (alookup st u).isSome = true → (alookup st' u).isSome = true) ∧
          (alookup st' w).isSome = true := by
  intro n
  induction n with
  | zero =>
    intro w hr hreach st
    obtain ⟨src, hw⟩ := Option.isSome_iff_exists.mp (hclosed w hreach)
    cases hv : src.val st with
    | ok v => exact loop_step_ok hw hv
    | panicked => exact loop_step_panic hw hv
    | needs d =>
      exfalso
      obtain ⟨hmem, -⟩ := src_val_needs hv
      have hdep : depends conns w d = true := by simp [depends, hw, hmem]
      have := hrank w d hdep
      omega
  | succ n ih =>
    intro w hr hreach st
    obtain ⟨src, hw⟩ := Option.isSome_iff_exists.mp (hclosed w hreach)
    have inner : ∀ m st0, unresolvedCount st0 (srcIdents src) ≤ m →
        ∃ f r, valLoop conns f st0 [w] = r ∧ r ≠ .fuelOut ∧
          ∀ st', r = .ok st' →
            (∀ u, (alookup st0 u).isSome = true →
              (alookup st' u).isSome = true) ∧
            (alookup st' w).isSome = true := by
      intro m
      induction m with
      | zero =>
        intro st0 hcnt
        cases hv : src.val st0 with
        | ok v => exact loop_step_ok hw hv
        | panicked => exact loop_step_panic hw hv
        | needs d =>
          exfalso
          obtain ⟨hmem, hnone⟩ := src_val_needs hv
          have hi : d ∈ (srcIdents src).filter
              (fun x => (alookup st0 x).isNone) :=
            List.mem_filter.mpr ⟨hmem, by simp [hnone]⟩
          have hpos := List.length_pos.mpr (List.ne_nil_of_mem hi)
          unfold unresolvedCount at hcnt
          omega
      | succ m ihm =>
        intro st0 hcnt
        cases hv : src.val st0 with
        | ok v => exact loop_step_ok hw hv
        | panicked => exact loop_step_panic hw hv
        | needs d =>
          obtain ⟨hmem, hnone⟩ := src_val_needs hv
          have hdep : depends conns w d = true := by simp [depends, hw, hmem]
          have hreachd : Reaches conns target d :=
            Relation.ReflTransGen.tail hreach hdep
          obtain ⟨f1, r1, hrun1, hne1, hpost1⟩ :=
            ih d (by have := hrank w d hdep; omega) hreachd st0
          cases r1 with
          | fuelOut => exact absurd rfl hne1
          | panicked =>
            refine ⟨f1 + 1, .panicked, ?_, by simp, fun st' h => by cases h⟩
            have happ := valLoop_append_panicked conns f1 st0 [d] [w] hrun1
            calc valLoop conns (f1 + 1) st0 [w]
                = valLoop conns f1 st0 [d, w] := by
                  simp only [valLoop, hw, hv]
              _ = .panicked := by simpa using happ
          | ok st1 =>
            obtain ⟨hmono1, hd1⟩ := hpost1 st1 rfl
            have hdec : unresolvedCount st1 (srcIdents src) <
                unresolvedCount st0 (srcIdents src) :=
              unresolvedCount_lt hmono1 hmem hnone hd1
            obtain ⟨f2, r2, hrun2, hne2, hpost2⟩ := ihm st1 (by omega)
            refine ⟨f1 + f2 + 1, r2, ?_, hne2, ?_⟩
            · have happ := valLoop_append_ok conns f1 st0 [d] [w] st1 hrun1
                f2 r2 hrun2 hne2
              calc valLoop conns (f1 + f2 + 1) st0 [w]
                  = valLoop conns (f1 + f2) st0 [d, w] := by
                    simp only [valLoop, hw, hv]
                _ = r2 := by simpa using happ
            · intro st' h
              obtain ⟨hmono2, hw2⟩ := hpost2 st' h
              exact ⟨fun u hu => hmono2 u (hmono1 u hu), hw2⟩
    exact inner (unresolvedCount st (srcIdents src)) st le_rfl

/-- Claim C2 (amended): on an acyclic graph whose nodes reachable from the
target are all keys of Connections, the explicit-stack loop of
`LogicWires::val(target)` performs only finitely many iterations from any
resolved state — it either empties the work stack (returning normally) or
aborts in a gate-evaluation panic (possible when a shift amount resolves to
16 or more); it never runs forever. -/
theorem c2_amended (conns : Connections) (target : String)
    (hacyc : Acyclic conns) (hclosed : ClosedFrom conns target)
    (st : WireState) :
    (∃ f r, valLoop conns f st [target] = r ∧ r ≠ .fuelOut) ∧
    (∃ f, LogicWires.val ⟨st, conns⟩ target f ≠ .fuelOut) := by
  obtain ⟨rank, hrank⟩ := hacyc
  obtain ⟨f, r, hrun, hne, hpost⟩ :=
    loop_term conns rank hrank target hclosed (rank target) target le_rfl
      Relation.ReflTransGen.refl st
  refine ⟨⟨f, r, hrun, hne⟩, ⟨f, ?_⟩⟩
  unfold LogicWires.val
  cases hc : alookup st target with
  | some v => simp
  | none =>
    simp only [hrun]
    cases r with
    | ok st' =>
      obtain ⟨-, hsome⟩ := hpost st' rfl
      obtain ⟨v, hv⟩ := Option.isSome_iff_exists.mp hsome
      simp [hv]
    | panicked => simp
    | fuelOut => exact absurd rfl hne

/-- Witness for the amended C2 at a concrete acyclic closed graph. -/
theorem c2_witness :
    (∃ f r, valLoop xWires.connections f [] ["x"] = r ∧ r ≠ .fuelOut) ∧
    (∃ f, LogicWires.val ⟨[], xWires.connections⟩ "x" f ≠ .fuelOut) :=
  c2_amended xWires.connections "x" xconns_acyclic xconns_closed []

/-! The frame property of the resolution loop. -/

/-- If the loop finishes normally, every pre-existing entry survives with its
value, provided each stack wire that is already resolved would re-evaluate to
its cached value (trivially true at entry: the seeded wire is unresolved). -/
theorem valLoop_preserves (conns : Connections) :
    ∀ (f : Nat) (st : WireState) (stack : List String) (st' : WireState),
      valLoop conns f st stack = .ok st' →
      (∀ w ∈ stack, ∀ x, alookup st w = some x →
        ∃ src, alookup conns w = some src ∧ src.val st = .ok x) →
      Extends st st' := by
  intro f
  induction f with
  | zero =>
    intro st stack st' h hstk
    cases stack with
    | nil =>
      obtain rfl : st = st' := by injection h
      exact fun u x hx => hx
    | cons w t => simp [valLoop] at h
  | succ f ih =>
    intro st stack st' h hstk
    cases stack with
    | nil =>
      obtain rfl : st = st' := by injection h
      exact fun u x hx => hx
    | cons w t =>
      simp only [valLoop] at h
      cases hc : alookup conns w with
      | none => simp only [hc] at h; cases h
      | some src =>
        simp only [hc] at h
        cases hv : src.val st with
        | ok v =>
          simp only [hv] at h
          have hE1 : Extends st ((w, v) :: st) := by
            intro u x hx
            by_cases hwu : w = u
            · subst hwu
              obtain ⟨src2, hsrc2, hval2⟩ := hstk w (by simp) x hx
              rw [hc] at hsrc2
              injection hsrc2 with hs
              subst hs
              rw [hv] at hval2
              injection hval2 with hxv
              subst hxv
              simp [alookup]
            · simp [alookup, hwu, hx]
          have hstk' : ∀ u ∈ t, ∀ x, alookup ((w, v) :: st) u = some x →
              ∃ src2, alookup conns u = some src2 ∧
                src2.val ((w, v) :: st) = .ok x := by
            intro u hu x hx
            by_cases hwu : w = u
            · subst hwu
              simp [alookup] at hx
              subst hx
              exact ⟨src, hc, src_val_ok_mono hE1 hv⟩
            · simp only [alookup, if_neg hwu] at hx
              obtain ⟨src2, hsrc2, hval2⟩ := hstk u (by simp [hu]) x hx
              exact ⟨src2, hsrc2, src_val_ok_mono hE1 hval2⟩
          exact extends_trans hE1 (ih _ _ _ h hstk')
        | needs d =>
          simp only [hv] at h
          have hstk' : ∀ u ∈ d :: w :: t, ∀ x, alookup st u = some x →
              ∃ src2, alookup conns u = some src2 ∧ src2.val st = .ok x := by
            intro u hu x hx
            rcases List.mem_cons.mp hu with rfl | hu2
            · obtain ⟨-, hnone⟩ := src_val_needs hv
              rw [hnone] at hx
              cases hx
            · exact hstk u hu2 x hx
          exact ih _ _ _ h hstk'
        | panicked => simp only [hv] at h; cases h

/-- If the loop finishes normally, every newly cached wire is reachable from
`target`, provided every stack wire is. -/
theorem valLoop_new_reachable (conns : Connections) (target : String) :
    ∀ (f : Nat) (st : WireState) (stack : List String) (st' : WireState),
      valLoop conns f st stack = .ok st' →
      (∀ w ∈ stack, Reaches conns target w) →
      ∀ u, alookup st u = none → (alookup st' u).isSome = true →
        Reaches conns target u := by
  intro f
  induction f with
  | zero =>
    intro st stack st' h hstk u hnone hsome
    cases stack with
    | nil =>
      obtain rfl : st = st' := by injection h
      rw [hnone] at hsome
      simp at hsome
    | cons w t => simp [valLoop] at h
  | succ f ih =>
    intro st stack st' h hstk u hnone hsome
    cases stack with
    | nil =>
      obtain rfl : st = st' := by injection h
      rw [hnone] at hsome
      simp at hsome
    | cons w t =>
      simp only [valLoop] at h
      cases hc : alookup conns w with
      | none => simp only [hc] at h; cases h
      | some src =>
        simp only [hc] at h
        cases hv : src.val st with
        | ok v =>
          simp only [hv] at h
          by_cases hwu : w = u
          · subst hwu
            exact hstk w (by simp)
          · refine ih _ _ _ h (fun x hx => hstk x (by simp [hx])) u ?_ hsome
            simp [alookup, hwu, hnone]
        | needs d =>
          simp only [hv] at h
          refine ih _ _ _ h ?_ u hnone hsome
          intro x hx
          rcases List.mem_cons.mp hx with rfl | hx2
          · obtain ⟨hmem, -⟩ := src_val_needs hv
            exact Relation.ReflTransGen.tail (hstk w (by simp))
              (by simp [depends, hc, hmem])
          · exact hstk x hx2
        | panicked => simp only [hv] at h; cases h

/-- Claim C8: a returning `val` call only appends to the Resolved state — no
pre-existing entry is removed or changed, and each new entry is for the
target or one of its not-previously-resolved transitive dependencies; the
connections are untouched. `add_connection` never touches the Resolved
state. -/
theorem c8_frame :
    (∀ (lw : LogicWires) (target : String) (fuel v : Nat) (lw' : LogicWires),
      lw.val target fuel = .ok v lw' →
      lw'.connections = lw.connections ∧
      (∀ u x, alookup lw.state u = some x → alookup lw'.state u = some x) ∧
      (∀ u, alookup lw.state u = none → (alookup lw'.state u).isSome = true →
        Reaches lw.connections target u)) ∧
    (∀ (lw : LogicWires) (s : String) (lw' : LogicWires),
      lw.add_connection s = some lw' → lw'.state = lw.state) := by
  constructor
  · intro lw target fuel v lw' h
    unfold LogicWires.val at h
    cases h0 : alookup lw.state target with
    | some x =>
      simp only [h0] at h
      injection h with hv hlw
      subst hv
      subst hlw
      refine ⟨rfl, fun u x hx => hx, ?_⟩
      intro u hnone hsome
      rw [hnone] at hsome
      simp at hsome
    | none =>
      simp only [h0] at h
      cases hl : valLoop lw.connections fuel lw.state [target] with
      | ok st =>
        simp only [hl] at h
        cases h1 : alookup st target with
        | some x =>
          simp only [h1] at h
          injection h with hv hlw
          subst hv
          subst hlw
          refine ⟨rfl, ?_, ?_⟩
          · have hstk : ∀ w ∈ [target], ∀ x, alookup lw.state w = some x →
                ∃ src, alookup lw.connections w = some src ∧
                  src.val lw.state = .ok x := by
              intro w hw x hx
              simp only [List.mem_singleton] at hw
              subst hw
              rw [h0] at hx
              cases hx
            exact fun u x hx =>
              valLoop_preserves lw.connections fuel lw.state [target] st hl
                hstk u x hx
          · intro u hnone hsome
            refine valLoop_new_reachable lw.connections target fuel lw.state
              [target] st hl ?_ u hnone hsome
            intro w hw
            simp only [List.mem_singleton] at hw
            subst hw
            exact Relation.ReflTransGen.refl
        | none => simp only [h1] at h; cases h
      | panicked => simp only [hl] at h; cases h
      | fuelOut => simp only [hl] at h; cases h
  · intro lw s lw' h
    unfold LogicWires.add_connection at h
    cases hp : parseStatement s with
    | some p =>
      rw [hp] at h
      injection h with h
      subst h
      rfl
    | none => rw [hp] at h; cases h

/-- Witness for C8 at a concrete resolving call. -/
theorem c8_witness :
    (⟨[("x", 123)], xWires.connections⟩ : LogicWires).connections =
      xWires.connections ∧
    (∀ u x, alookup xWires.state u = some x →
      alookup (⟨[("x", 123)], xWires.connections⟩ : LogicWires).state u =
        some x) ∧
    (∀ u, alookup xWires.state u = none →
      (alookup (⟨[("x", 123)], xWires.connections⟩ : LogicWires).state
        u).isSome = true →
      Reaches xWires.connections "x" u) :=
  c8_frame.1 xWires "x" 2 123 ⟨[("x", 123)], xWires.connections⟩ (by decide)

/-- Claim C3 (amended): `value_of` on a name with no Connections entry and no
Resolved-cache entry panics (for every positive fuel) and never returns a
value; in general, whenever the resolution loop pops a name that is not a
Connections key it panics immediately. A name already in the Resolved cache,
however, answers from the cache without consulting Connections, even if its
current expression references undefined names. -/
theorem c3_amended :
    (∀ (lw : LogicWires) (w : String),
      alookup lw.state w = none → alookup lw.connections w = none →
      (∀ f, lw.val w (f + 1) = .panicked) ∧
      (∀ f v lw', lw.val w f ≠ .ok v lw')) ∧
    (∀ (conns : Connections) (f : Nat) (st : WireState) (w : String)
        (rest : List String), alookup conns w = none →
      valLoop conns (f + 1) st (w :: rest) = .panicked) := by
  constructor
  · intro lw w hst hconn
    constructor
    · intro f
      unfold LogicWires.val
      simp only [hst]
      have hl : valLoop lw.connections (f + 1) lw.state [w] = .panicked := by
        simp only [valLoop, hconn]
      simp [hl]
    · intro f v lw'
      unfold LogicWires.val
      simp only [hst]
      cases f with
      | zero => simp [valLoop]
      | succ f => simp [valLoop, hconn]
  · intro conns f st w rest hconn
    simp only [valLoop, hconn]

/-- Witness for the amended C3: asking for a never-bound wire panics. -/
theorem c3_witness :
    (∀ f, LogicWires.val ⟨[], []⟩ "q" (f + 1) = .panicked) ∧
    (∀ f v lw', LogicWires.val ⟨[], []⟩ "q" f ≠ .ok v lw') :=
  c3_amended.1 ⟨[], []⟩ "q" rfl rfl

/-- Claim C4 (amended): re-binding a destination makes the most recent
binding the one found in Connections and authoritative for resolving d while
d is not in the Resolved cache; `add_connection` itself never changes the
Resolved state, so a value already cached for d by an earlier `value_of`
keeps being returned (the cache is not invalidated by re-binding). -/
theorem c4_amended (lw : LogicWires) (s1 s2 d : String)
    (src1 src2 : WireSource) (lw1 lw2 : LogicWires)
    (h1 : parseStatement s1 = some (d, src1))
    (h2 : parseStatement s2 = some (d, src2))
    (ha1 : lw.add_connection s1 = some lw1)
    (ha2 : lw1.add_connection s2 = some lw2) :
    alookup lw2.connections d = some src2 ∧ lw2.state = lw.state ∧
    (∀ v, alookup lw2.state d = none → src2.val lw2.state = .ok v →
      ∀ f, lw2.val d (f + 1) = .ok v ⟨(d, v) :: lw2.state, lw2.connections⟩) := by
  unfold LogicWires.add_connection at ha1 ha2
  rw [h1] at ha1
  injection ha1 with ha1
  subst ha1
  rw [h2] at ha2
  injection ha2 with ha2
  subst ha2
  refine ⟨by simp [alookup], rfl, ?_⟩
  intro v hnone hok f
  unfold LogicWires.val
  simp only [hnone]
  have hlk : alookup ((d, src2) :: (d, src1) :: lw.connections) d =
      some src2 := by simp [alookup]
  have hloop : valLoop ((d, src2) :: (d, src1) :: lw.connections) (f + 1)
      lw.state [d] = .ok ((d, v) :: lw.state) := by
    simp only [valLoop, hlk, hok]
  simp only [hloop]
  simp [alookup]

/-- Witness for the amended C4 at a concrete re-binding session. -/
theorem c4_witness :
    alookup dConns2.connections "d" = some (.value (.literal 2)) ∧
    dConns2.state = ([] : WireState) ∧
    (∀ v, alookup dConns2.state "d" = none →
      (WireSource.value (WireValue.literal 2)).val dConns2.state = .ok v →
      ∀ f, dConns2.val "d" (f + 1) =
        .ok v ⟨("d", v) :: dConns2.state, dConns2.connections⟩) :=
  c4_amended ⟨[], []⟩ "1 -> d" "2 -> d" "d" (.value (.literal 1))
    (.value (.literal 2)) dConns1 dConns2 (by decide) (by decide)
    (by decide) (by decide)

/-! Order-independence of statement loading. -/

theorem loadLines_eq :
    ∀ (lines : List String) (lw lw' : LogicWires),
      loadLines lw lines = some lw' →
      lw'.state = lw.state ∧
      lw'.connections =
        (lines.filterMap parseStatement).reverse ++ lw.connections := by
  intro lines
  induction lines with
  | nil =>
    intro lw lw' h
    injection h with h
    subst h
    simp
  | cons l t ih =>
    intro lw lw' h
    simp only [loadLines] at h
    cases hp : lw.add_connection l with
    | none => rw [hp] at h; cases h
    | some lw1 =>
      rw [hp] at h
      obtain ⟨hs, hc⟩ := ih lw1 lw' h
      unfold LogicWires.add_connection at hp
      cases hps : parseStatement l with
      | none => rw [hps] at hp; cases hp
      | some p =>
        rw [hps] at hp
        injection hp with hp
        subst hp
        refine ⟨hs, ?_⟩
        rw [hc]
        simp [hps, List.filterMap_cons, List.reverse_cons, List.append_assoc]

theorem alookup_eq_some_iff {α : Type} :
    ∀ {ps : List (String × α)}, (ps.map Prod.fst).Nodup →
      ∀ {k : String} {v : α}, (alookup ps k = some v ↔ (k, v) ∈ ps) := by
  intro ps
  induction ps with
  | nil => intro _ k v; simp [alookup]
  | cons p t ih =>
    intro hnd k v
    obtain ⟨k0, v0⟩ := p
    simp only [List.map_cons, List.nodup_cons] at hnd
    obtain ⟨hk0, hnd'⟩ := hnd
    by_cases hkk : k0 = k
    · subst hkk
      simp only [alookup, if_pos rfl]
      constructor
      · intro h
        injection h with h
        subst h
        simp
      · intro h
        rcases List.mem_cons.mp h with heq | hmem
        · obtain ⟨-, rfl⟩ := Prod.mk.injEq .. ▸ heq
          rfl
        · exact absurd (List.mem_map.mpr ⟨(k0, v), hmem, rfl⟩) hk0
    · simp only [alookup, if_neg hkk]
      rw [ih hnd']
      constructor
      · exact fun h => List.mem_cons_of_mem _ h
      · intro h
        rcases List.mem_cons.mp h with heq | hmem
        · exfalso
          apply hkk
          injection heq with h1 h2
          exact h1.symm
        · exact hmem

theorem alookup_eq_none_iff {α : Type} :
    ∀ {ps : List (String × α)} {k : String},
      (alookup ps k = none ↔ k ∉ ps.map Prod.fst) := by
  intro ps
  induction ps with
  | nil => intro k; simp [alookup]
  | cons p t ih =>
    intro k
    obtain ⟨k0, v0⟩ := p
    by_cases hkk : k0 = k
    · subst hkk
      simp [alookup]
    · simp only [alookup, if_neg hkk, List.map_cons, List.mem_cons]
      rw [ih]
      constructor
      · intro h hc
        rcases hc with rfl | hmem
        · exact hkk rfl
        · exact h hmem
      · intro h hmem
        exact h (Or.inr hmem)

theorem alookup_ext_of_perm {α : Type} {ps qs : List (String × α)}
    (hperm : ps.Perm qs) (hnd : (ps.map Prod.fst).Nodup) (k : String) :
    alookup ps k = alookup qs k := by
  have hndq : (qs.map Prod.fst).Nodup := ((hperm.map Prod.fst).nodup_iff).mp hnd
  cases hq : alookup ps k with
  | some v =>
    rw [alookup_eq_some_iff hnd] at hq
    exact ((alookup_eq_some_iff hndq).mpr (hperm.subset hq)).symm
  | none =>
    rw [alookup_eq_none_iff] at hq
    symm
    rw [alookup_eq_none_iff]
    intro hc
    exact hq (((hperm.map Prod.fst).mem_iff).mpr hc)

theorem valLoop_congr (c1 c2 : Connections)
    (hext : ∀ k, alookup c1 k = alookup c2 k) :
    ∀ (f : Nat) (st : WireState) (stack : List String),
      valLoop c1 f st stack = valLoop c2 f st stack := by
  intro f
  induction f with
  | zero => intro st stack; cases stack <;> simp [valLoop]
  | succ f ih =>
    intro st stack
    cases stack with
    | nil => simp [valLoop]
    | cons w t =>
      simp only [valLoop]
      rw [hext w]
      cases hc : alookup c2 w with
      | none => rfl
      | some src =>
        show (match src.val st with
            | EvalRes.ok v => valLoop c1 f ((w, v) :: st) t
            | EvalRes.needs d => valLoop c1 f st (d :: w :: t)
            | EvalRes.panicked => RunRes.panicked) =
          (match src.val st with
            | EvalRes.ok v => valLoop c2 f ((w, v) :: st) t
            | EvalRes.needs d => valLoop c2 f st (d :: w :: t)
            | EvalRes.panicked => RunRes.panicked)
        cases hv : src.val st with
        | ok v => exact ih _ _
        | needs d => exact ih _ _
        | panicked => rfl

/-- Claim C5 (amended): for a set of well-formed statements with pairwise
distinct destinations, loading any two permutations yields sessions in which
`value_of` returns the same value for every wire and fuel; and a forward
reference (a statement citing a node defined by a later line) resolves
correctly once all statements are loaded. -/
theorem c5_amended :
    (∀ (lines1 lines2 : List String) (lw1 lw2 : LogicWires),
      lines1.Perm lines2 →
      ((lines1.filterMap parseStatement).map Prod.fst).Nodup →
      loadLines ⟨[], []⟩ lines1 = some lw1 →
      loadLines ⟨[], []⟩ lines2 = some lw2 →
      ∀ w f, (lw1.val w f).value? = (lw2.val w f).value?) ∧
    (loadLines ⟨[], []⟩ ["a -> b", "1 -> a"]).map
      (fun lw => (lw.val "b" 5).value?) = some (some 1) := by
  constructor
  · intro lines1 lines2 lw1 lw2 hperm hnd h1 h2
    obtain ⟨hs1, hc1⟩ := loadLines_eq lines1 _ _ h1
    obtain ⟨hs2, hc2⟩ := loadLines_eq lines2 _ _ h2
    have hps : (lines1.filterMap parseStatement).Perm
        (lines2.filterMap parseStatement) := hperm.filterMap _
    have hext : ∀ k, alookup lw1.connections k = alookup lw2.connections k := by
      intro k
      rw [hc1, hc2]
      simp only [List.append_nil]
      apply alookup_ext_of_perm
      · exact ((lines1.filterMap parseStatement).reverse_perm).trans
          (hps.trans ((lines2.filterMap parseStatement).reverse_perm).symm)
      · rw [List.map_reverse]
        exact List.nodup_reverse.mpr hnd
    intro w f
    unfold LogicWires.val
    rw [hs1, hs2]
    simp only [alookup]
    rw [valLoop_congr lw1.connections lw2.connections hext f [] [w]]
    cases hr : valLoop lw2.connections f [] [w] with
    | ok st =>
      cases h2 : alookup st w with
      | some v => simp [h2, ValRes.value?]
      | none => simp [h2, ValRes.value?]
    | panicked => simp [ValRes.value?]
    | fuelOut => simp [ValRes.value?]
  · decide

/-- Witness for the amended C5 at a concrete two-line permutation. -/
theorem c5_witness :
    (LogicWires.val ⟨[], [("b", WireSource.value (WireValue.ident "a")),
        ("a", WireSource.value (WireValue.literal 1))]⟩ "b" 5).value? =
    (LogicWires.val ⟨[], [("a", WireSource.value (WireValue.literal 1)),
        ("b", WireSource.value (WireValue.ident "a"))]⟩ "b" 5).value? :=
  c5_amended.1 ["1 -> a", "a -> b"] ["a -> b", "1 -> a"]
    ⟨[], [("b", WireSource.value (WireValue.ident "a")),
        ("a", WireSource.value (WireValue.literal 1))]⟩
    ⟨[], [("a", WireSource.value (WireValue.literal 1)),
        ("b", WireSource.value (WireValue.ident "a"))]⟩
    (List.Perm.swap _ _ _) (by decide) (by decide) (by decide) "b" 5

/-! Tokenization lemmas for reasoning about statements with an abstract token. -/

theorem data_append (s t : String) : (s ++ t).data = s.data ++ t.data := by
  cases s
  cases t
  rfl

theorem mk_data (s : String) : String.mk s.data = s := by
  cases s
  rfl

theorem wordsAux_append :
    ∀ (w : List Char), (∀ c ∈ w, isAsciiWs c = false) →
      ∀ (acc rest : List Char),
        wordsAux (w ++ ' ' :: rest) acc =
          wordsAux (' ' :: rest) (w.reverse ++ acc) := by
  intro w
  induction w with
  | nil => intro h acc rest; simp
  | cons c t ih =>
    intro h acc rest
    have hc : isAsciiWs c = false := h c (by simp)
    have hstep : wordsAux ((c :: t) ++ ' ' :: rest) acc =
        wordsAux (t ++ ' ' :: rest) (c :: acc) := by
      simp only [List.cons_append, wordsAux, hc, Bool.false_eq_true, if_false]
      rfl
    rw [hstep, ih (fun x hx => h x (by simp [hx])) (c :: acc) rest]
    congr 1
    simp [List.reverse_cons, List.append_assoc]

theorem words_append_word (w : List Char) (h1 : w ≠ [])
    (h2 : ∀ c ∈ w, isAsciiWs c = false) (rest : List Char) :
    wordsAux (w ++ ' ' :: rest) [] = w :: wordsAux rest [] := by
  rw [wordsAux_append w h2 [] rest]
  simp only [List.append_nil, wordsAux]
  have hws : isAsciiWs ' ' = true := rfl
  have hne : w.reverse.isEmpty = false := by
    cases w with
    | nil => exact absurd rfl h1
    | cons c t => simp
  simp [hws, hne]

theorem token_parse_digit {s : String} {c : Char} {cs : List Char}
    (hd : s.data = c :: cs) (hc : c.isDigit = true) :
    Token.parse s = some (.literal s) := by
  unfold Token.parse
  rw [hd]
  simp [hc]

theorem token_parse_alpha {s : String} {c : Char} {cs : List Char}
    (hd : s.data = c :: cs) (hca : rustIsAlpha c = true)
    (hcd : c.isDigit = false) :
    Token.parse s = some (.ident s) := by
  unfold Token.parse
  rw [hd]
  simp [hca, hcd]

theorem tokensA (s : String) (h1 : s.data ≠ [])
    (h2 : ∀ c ∈ s.data, isAsciiWs c = false) :
    splitAsciiWs (s ++ " -> d") = [s, "->", "d"] := by
  unfold splitAsciiWs
  have hdata : (s ++ " -> d").data =
      s.data ++ ' ' :: ('-' :: '>' :: ' ' :: 'd' :: []) := by
    rw [data_append]
  rw [hdata, words_append_word s.data h1 h2]
  have hrest : wordsAux ('-' :: '>' :: ' ' :: 'd' :: []) [] =
      [['-', '>'], ['d']] := by decide
  rw [hrest]
  simp [mk_data]

theorem tokensB (s : String) (h1 : s.data ≠ [])
    (h2 : ∀ c ∈ s.data, isAsciiWs c = false) :
    splitAsciiWs ("NOT " ++ s ++ " -> d") = ["NOT", s, "->", "d"] := by
  unfold splitAsciiWs
  have hdata : ("NOT " ++ s ++ " -> d").data =
      ('N' :: 'O' :: 'T' :: []) ++ ' ' ::
        (s.data ++ ' ' :: ('-' :: '>' :: ' ' :: 'd' :: [])) := by
    rw [data_append, data_append]
    rfl
  rw [hdata, words_append_word _ (by simp) (by decide),
    words_append_word s.data h1 h2]
  have hrest : wordsAux ('-' :: '>' :: ' ' :: 'd' :: []) [] =
      [['-', '>'], ['d']] := by decide
  rw [hrest]
  simp [mk_data]

theorem tokensC (s : String) (h1 : s.data ≠ [])
    (h2 : ∀ c ∈ s.data, isAsciiWs c = false) :
    splitAsciiWs (s ++ " AND y -> d") = [s, "AND", "y", "->", "d"] := by
  unfold splitAsciiWs
  have hdata : (s ++ " AND y -> d").data =
      s.data ++ ' ' :: ('A' :: 'N' :: 'D' :: ' ' :: 'y' :: ' ' :: '-' :: '>' ::
        ' ' :: 'd' :: []) := by
    rw [data_append]
  rw [hdata, words_append_word s.data h1 h2]
  have hrest : wordsAux ('A' :: 'N' :: 'D' :: ' ' :: 'y' :: ' ' :: '-' :: '>' ::
      ' ' :: 'd' :: []) [] = [['A', 'N', 'D'], ['y'], ['-', '>'], ['d']] := by
    decide
  rw [hrest]
  simp [mk_data]

theorem tokensD (s : String) (h1 : s.data ≠ [])
    (h2 : ∀ c ∈ s.data, isAsciiWs c = false) :
    splitAsciiWs ("y AND " ++ s ++ " -> d") = ["y", "AND", s, "->", "d"] := by
  unfold splitAsciiWs
  have hdata : ("y AND " ++ s ++ " -> d").data =
      ('y' :: []) ++ ' ' :: (('A' :: 'N' :: 'D' :: []) ++ ' ' ::
        (s.data ++ ' ' :: ('-' :: '>' :: ' ' :: 'd' :: []))) := by
    rw [data_append, data_append]
    rfl
  rw [hdata, words_append_word _ (by simp) (by decide),
    words_append_word _ (by simp) (by decide),
    words_append_word s.data h1 h2]
  have hrest : wordsAux ('-' :: '>' :: ' ' :: 'd' :: []) [] =
      [['-', '>'], ['d']] := by decide
  rw [hrest]
  simp [mk_data]

theorem tokensE (s : String) (h1 : s.data ≠ [])
    (h2 : ∀ c ∈ s.data, isAsciiWs c = false) :
    splitAsciiWs ("x " ++ s ++ " y -> d") = ["x", s, "y", "->", "d"] := by
  unfold splitAsciiWs
  have hdata : ("x " ++ s ++ " y -> d").data =
      ('x' :: []) ++ ' ' ::
        (s.data ++ ' ' :: ('y' :: ' ' :: '-' :: '>' :: ' ' :: 'd' :: [])) := by
    rw [data_append, data_append]
    rfl
  rw [hdata, words_append_word _ (by simp) (by decide),
    words_append_word s.data h1 h2]
  have hrest : wordsAux ('y' :: ' ' :: '-' :: '>' :: ' ' :: 'd' :: []) [] =
      [['y'], ['-', '>'], ['d']] := by decide
  rw [hrest]
  simp [mk_data]

theorem digit_head_ne_NOT {s : String} {c : Char} {cs : List Char}
    (hd : s.data = c :: cs) (hc : c.isDigit = true) : ¬ s = "NOT" := by
  intro h
  subst h
  have he : ("NOT" : String).data = 'N' :: 'O' :: 'T' :: [] := rfl
  rw [he] at hd
  have hcN : c = 'N' := by
    injection hd with ha hb
    exact ha.symm
  rw [hcN] at hc
  exact absurd hc (by decide)

theorem alpha_head_ne_arrow {s : String} {c : Char} {cs : List Char}
    (hd : s.data = c :: cs) (hca : rustIsAlpha c = true) : ¬ s = "->" := by
  intro h
  subst h
  have he : ("->" : String).data = '-' :: '>' :: [] := rfl
  rw [he] at hd
  have hcm : c = '-' := by
    injection hd with ha hb
    exact ha.symm
  rw [hcm] at hca
  exact absurd hca (by decide)

/-- Claim C10 (amended): a token that starts with a decimal digit but is not
a valid 16-bit unsigned numeral panics `add_connection` whenever it stands in
an operand position of any statement shape (there is no clamping, wrapping,
or defaulting); a token of that ilk in destination position, however, is
accepted verbatim as the destination key. -/
theorem c10_amended (s : String) (h1 : s.data ≠ [])
    (h2 : ∀ c ∈ s.data, isAsciiWs c = false)
    (h3 : ∃ c cs, s.data = c :: cs ∧ c.isDigit = true)
    (h4 : rustParseU16 s = none) :
    parseStatement (s ++ " -> d") = none ∧
    parseStatement ("NOT " ++ s ++ " -> d") = none ∧
    parseStatement (s ++ " AND y -> d") = none ∧
    parseStatement ("y AND " ++ s ++ " -> d") = none := by
  obtain ⟨c, cs, hd, hc⟩ := h3
  have hptok : Token.parse s = some (.literal s) := token_parse_digit hd hc
  have hfrom : WireValue.from_token (.literal s) = none := by
    simp [WireValue.from_token, h4]
  have hne : ¬ s = "NOT" := digit_head_ne_NOT hd hc
  refine ⟨?_, ?_, ?_, ?_⟩
  · have htoks : List.filterMap Token.parse [s, "->", "d"] =
        [Token.literal s, Token.op "->", Token.ident "d"] := by
      rw [List.filterMap_cons, hptok]
      rfl
    unfold parseStatement
    rw [tokensA s h1 h2, htoks]
    simp [Token.str, hne, hfrom]
  · have htoks : List.filterMap Token.parse ["NOT", s, "->", "d"] =
        [Token.ident "NOT", Token.literal s, Token.op "->", Token.ident "d"] := by
      have hNOT : Token.parse "NOT" = some (.ident "NOT") := rfl
      rw [List.filterMap_cons, hNOT, List.filterMap_cons, hptok]
      rfl
    unfold parseStatement
    rw [tokensB s h1 h2, htoks]
    simp [Token.str, hfrom]
  · have htoks : List.filterMap Token.parse [s, "AND", "y", "->", "d"] =
        [Token.literal s, Token.ident "AND", Token.ident "y", Token.op "->",
          Token.ident "d"] := by
      rw [List.filterMap_cons, hptok]
      rfl
    unfold parseStatement
    rw [tokensC s h1 h2, htoks]
    simp [Token.str, hne, hfrom]
  · have htoks : List.filterMap Token.parse ["y", "AND", s, "->", "d"] =
        [Token.ident "y", Token.ident "AND", Token.literal s, Token.op "->",
          Token.ident "d"] := by
      have hy : Token.parse "y" = some (.ident "y") := rfl
      have hA : Token.parse "AND" = some (.ident "AND") := rfl
      rw [List.filterMap_cons, hy, List.filterMap_cons, hA,
        List.filterMap_cons, hptok]
      rfl
    unfold parseStatement
    rw [tokensD s h1 h2, htoks]
    simp [Token.str, WireValue.from_token, h4]

/-- Witness for the amended C10 at the out-of-range literal 70000. -/
theorem c10_witness :
    parseStatement ("70000" ++ " -> d") = none ∧
    parseStatement ("NOT " ++ "70000" ++ " -> d") = none ∧
    parseStatement ("70000" ++ " AND y -> d") = none ∧
    parseStatement ("y AND " ++ "70000" ++ " -> d") = none :=
  c10_amended "70000" (by decide) (by decide)
    ⟨'7', ['0', '0', '0', '0'], rfl, by decide⟩ (by decide)

/-- Claim C6 (amended): malformed statements are fatal exactly at the token
positions the parser inspects — an unrecognized binary operator token, or a
missing required token, panics `add_connection` — but the parser never checks
the `->` tokens nor rejects trailing extra tokens, so some lines outside the
three statement shapes are accepted (for example `123 -> x tail`, which
inserts x bound to 123). -/
theorem c6_amended :
    (∀ (s : String), s.data ≠ [] → (∀ c ∈ s.data, isAsciiWs c = false) →
      (∃ c cs, s.data = c :: cs ∧ rustIsAlpha c = true ∧ c.isDigit = false) →
      s ∉ (["AND", "OR", "LSHIFT", "RSHIFT"] : List String) →
      parseStatement ("x " ++ s ++ " y -> d") = none) ∧
    parseStatement "x AND y" = none ∧
    parseStatement "NOT" = none ∧
    parseStatement "" = none ∧
    parseStatement "123 -> x tail" = some ("x", .value (.literal 123)) := by
  refine ⟨?_, by decide, by decide, by decide, by decide⟩
  intro s h1 h2 h3 h4
  obtain ⟨c, cs, hd, hca, hcd⟩ := h3
  have hptok : Token.parse s = some (.ident s) := token_parse_alpha hd hca hcd
  have htoks : List.filterMap Token.parse ["x", s, "y", "->", "d"] =
      [Token.ident "x", Token.ident s, Token.ident "y", Token.op "->",
        Token.ident "d"] := by
    have hx : Token.parse "x" = some (.ident "x") := rfl
    rw [List.filterMap_cons, hx, List.filterMap_cons, hptok]
    rfl
  have hne1 : ¬ ("x" : String) = "NOT" := by decide
  have hnarrow : ¬ s = "->" := alpha_head_ne_arrow hd hca
  have hbin : LogicGate.binary_from_tokens (.ident "x") (Token.ident s)
      (.ident "y") = none := by
    unfold LogicGate.binary_from_tokens
    have hA : ¬ s = "AND" := by intro h; exact h4 (by simp [h])
    have hO : ¬ s = "OR" := by intro h; exact h4 (by simp [h])
    have hL : ¬ s = "LSHIFT" := by intro h; exact h4 (by simp [h])
    have hR : ¬ s = "RSHIFT" := by intro h; exact h4 (by simp [h])
    simp [Token.str, hA, hO, hL, hR]
  unfold parseStatement
  rw [tokensE s h1 h2, htoks]
  simp [Token.str, hne1, hnarrow, WireValue.from_token, hbin]

/-- Witness for the amended C6 at the unrecognized operator XOR. -/
theorem c6_witness : parseStatement ("x " ++ "XOR" ++ " y -> d") = none :=
  c6_amended.1 "XOR" (by decide) (by decide)
    ⟨'X', ['O', 'R'], rfl, by decide, by decide⟩ (by decide)
